import Mathlib

/-
Verification of the blackjack decision/simulation engine
(src/python_utils/_blackjack/advanced-blackjack-simulation.py and
 advanced-blackjack-ai.py).

Embedding conventions:
* Machine reals (Python floats: skill levels, probabilities, bankrolls) are
  modelled as exact rationals.
* A Python list used as a stack (deck.cards, popped from the end) is a
  Lean `List` whose last element is the next card drawn.
* Randomness is passed in explicitly: the results of `random.random()` are
  rational parameters, `random.choice` receives its index, `random.shuffle`
  is a permutation-producing parameter, and the actions returned by
  `make_decision` during a simulated round are an oracle list consumed in
  order.
* `while` loops whose termination is not structural receive a fuel
  parameter; fuel 17 is proved sufficient for the dealer loops.
* Python exceptions (drawing from an empty deck, division by zero) become
  `Option.none`.
-/

namespace Blackjack

/-- Ranks of playing cards, following `Card.RANKS` in the source.  Invalid
ranks are unrepresentable, mirroring the constructor's validation. -/
inductive Rank
  | ace | two | three | four | five | six | seven | eight | nine | ten
  | jack | queen | king
deriving DecidableEq, Repr

/-- Suits of playing cards, following `Card.SUITS` in the source. -/
inductive Suit
  | spades | hearts | diamonds | clubs
deriving DecidableEq, Repr

/-- A playing card: rank and suit, as in the source `Card` class. -/
structure Card where
  rank : Rank
  suit : Suit
deriving DecidableEq, Repr

/-- `Card.value` from the source: J/Q/K count 10, an Ace counts 11, the
other ranks their number. -/
def Card.value (c : Card) : Nat :=
  match c.rank with
  | .jack | .queen | .king => 10
  | .ace => 11
  | .two => 2
  | .three => 3
  | .four => 4
  | .five => 5
  | .six => 6
  | .seven => 7
  | .eight => 8
  | .nine => 9
  | .ten => 10

/-- `total = sum(card.value() for card in self.cards)` in `Hand.value`. -/
def rawSum (h : List Card) : Nat := (h.map Card.value).sum

/-- `aces = sum(1 for card in self.cards if card.rank == 'A')` in
`Hand.value`. -/
def acesCount (h : List Card) : Nat :=
  (h.filter fun c => decide (c.rank = Rank.ace)).length

/-- The Ace-demotion loop of `Hand.value`:
`while total > 21 and aces > 0: total -= 10; aces -= 1`. -/
def adjustAces : Nat → Nat → Nat
  | total, 0 => total
  | total, aces + 1 => if 21 < total then adjustAces (total - 10) aces else total

/-- `Hand.value()` from the source (identical in both source files). -/
def handValue (h : List Card) : Nat := adjustAces (rawSum h) (acesCount h)

/-- `Hand.is_blackjack()`: exactly two cards and value 21. -/
def isBlackjack (h : List Card) : Bool := h.length == 2 && handValue h == 21

/-- `Hand.can_split()`: exactly two cards of equal rank. -/
def canSplit (h : List Card) : Bool :=
  match h with
  | [a, b] => a.rank == b.rank
  | _ => false

/-- The four action labels the engine emits (the Python code uses the
strings "Hit", "Stand", "Double", "Split"). -/
inductive Action
  | hit | stand | double | split
deriving DecidableEq, Repr

/-- `BlackjackAI.basic_strategy` of advanced-blackjack-simulation.py
(lines 137-170).  The split and double sections return only from their
matched branches; an unmatched value falls through, which the `Option`
encodes. -/
def basicStrategy (hand : List Card) (upCard : Card) : Action :=
  let playerValue := handValue hand
  let dealerValue := upCard.value
  let splitTable : Option Action :=
    if canSplit hand then
      if playerValue ∈ [16, 18] then some Action.split
      else if playerValue = 20 then some Action.stand
      else if playerValue ∈ [4, 6] then
        some (if dealerValue ∈ [2, 3, 4, 5, 6] then Action.split else Action.hit)
      else if playerValue = 12 then
        some (if dealerValue ∈ [2, 3, 4, 5, 6] then Action.split else Action.hit)
      else if playerValue = 14 then
        some (if dealerValue ∈ [2, 3, 4, 5, 6, 7] then Action.split else Action.hit)
      else none
    else none
  match splitTable with
  | some a => a
  | none =>
    let doubleTable : Option Action :=
      if hand.length = 2 then
        if playerValue = 11 then
          some (if dealerValue ≠ 11 then Action.double else Action.hit)
        else if playerValue = 10 then
          some (if dealerValue < 10 then Action.double else Action.hit)
        else if playerValue = 9 then
          some (if 3 ≤ dealerValue ∧ dealerValue ≤ 6 then Action.double else Action.hit)
        else none
      else none
    match doubleTable with
    | some a => a
    | none =>
      if 17 ≤ playerValue then Action.stand
      else if playerValue ≤ 11 then Action.hit
      else if playerValue = 12 then
        (if 4 ≤ dealerValue ∧ dealerValue ≤ 6 then Action.stand else Action.hit)
      else if 13 ≤ playerValue ∧ playerValue ≤ 16 then
        (if 2 ≤ dealerValue ∧ dealerValue ≤ 6 then Action.stand else Action.hit)
      else Action.stand

/-- `BlackjackAI.basic_strategy` of advanced-blackjack-ai.py
(lines 130-144): the totals-only table. -/
def basicStrategyAI (hand : List Card) (upCard : Card) : Action :=
  let playerValue := handValue hand
  let dealerValue := upCard.value
  if 17 ≤ playerValue then Action.stand
  else if playerValue ≤ 11 then Action.hit
  else if playerValue = 12 then
    (if 4 ≤ dealerValue ∧ dealerValue ≤ 6 then Action.stand else Action.hit)
  else if 13 ≤ playerValue ∧ playerValue ≤ 16 then
    (if 2 ≤ dealerValue ∧ dealerValue ≤ 6 then Action.stand else Action.hit)
  else Action.stand

/-- `list.pop()` on a Python deck: remove and return the last card. -/
def drawLast : List Card → Option (Card × List Card)
  | [] => none
  | c :: cs => some ((c :: cs).getLast (List.cons_ne_nil c cs), (c :: cs).dropLast)

/-- The per-value histogram of the remaining shoe
(`remaining_cards[card.value()] += 1`), keyed over the integers exactly as
the Python `defaultdict(int)` is. -/
def remainingCount (deck : List Card) (v : ℤ) : Nat :=
  (deck.filter fun c => decide ((c.value : ℤ) = v)).length

/-- `BlackjackAI.calculate_bust_probability`: the histogram total is the
number of remaining cards, the bust cards are those with value in
`range(22 - hand.value(), 11)`, and the result is their exact quotient
(0 on an empty shoe). -/
def calculateBustProbability (deck : List Card) (hand : List Card) : ℚ :=
  let totalCards := deck.length
  let bustCards := ∑ i ∈ Finset.Ico (22 - (handValue hand : ℤ)) 11, remainingCount deck i
  if 0 < totalCards then (bustCards : ℚ) / (totalCards : ℚ) else 0

/-- One trial of `BlackjackAI.simulate_dealer_hand`: while the dealer hand
is below 17, pop the last card of the deck, add it to the hand, and append
that same card back to the end of the deck (the source's
`self.deck.cards.append(dealer_hand.cards[-1])`).  Returns the final hand
and the final deck; fuel 17 is proved sufficient below. -/
def dealerTrial : Nat → List Card → List Card → Option (List Card × List Card)
  | 0, deck, hand => if handValue hand < 17 then none else some (hand, deck)
  | fuel + 1, deck, hand =>
    if handValue hand < 17 then
      match drawLast deck with
      | none => none
      | some (c, deck') => dealerTrial fuel (deck' ++ [c]) (hand ++ [c])
    else some (hand, deck)

/-- The trial loop of `simulate_dealer_hand`: run `n` trials against the
shared deck, counting the trials on which the dealer hand exceeds 21. -/
def dealerTrials (deck : List Card) (upCard : Card) : Nat → Option (Nat × List Card)
  | 0 => some (0, deck)
  | n + 1 =>
    match dealerTrial 17 deck [upCard] with
    | none => none
    | some (hand, deck') =>
      match dealerTrials deck' upCard n with
      | none => none
      | some (busts, deck'') =>
        some ((if 21 < handValue hand then busts + 1 else busts), deck'')

/-- `BlackjackAI.simulate_dealer_hand(up_card, num_simulations)`: the bust
fraction over the trials (`none` models the Python exceptions: a division
by zero when `num_simulations = 0`, or drawing from an exhausted deck). -/
def simulateDealerHand (deck : List Card) (upCard : Card) (numSimulations : Nat) :
    Option (ℚ × List Card) :=
  if numSimulations = 0 then none
  else
    (dealerTrials deck upCard numSimulations).map fun bd =>
      ((bd.1 : ℚ) / (numSimulations : ℚ), bd.2)

/-- `BlackjackAI.recommend_action` of advanced-blackjack-ai.py
(lines 146-159): basic recommendation, exact bust probability and the
Monte Carlo dealer-bust estimate are computed first, then the overlay
chain decides. -/
def recommendAction (deck : List Card) (trueCount : ℚ) (hand : List Card) (upCard : Card)
    (numSimulations : Nat) : Option Action :=
  let basicRecommendation := basicStrategyAI hand upCard
  let bustProb := calculateBustProbability deck hand
  match simulateDealerHand deck upCard numSimulations with
  | none => none
  | some (dealerBustProb, _) =>
    some
      (if 2 < trueCount ∧ handValue hand = 16 ∧ upCard.value = 10 then Action.stand
       else if (3 : ℚ) / 5 < bustProb then Action.stand
       else if (1 : ℚ) / 2 < dealerBustProb ∧ 12 ≤ handValue hand then Action.stand
       else basicRecommendation)

/-- First-match-wins rule list, used to restate the specification's
overlay ("overlay in fixed order ... first match wins"). -/
def firstMatch : List (Bool × Action) → Action → Action
  | [], fallback => fallback
  | (cond, a) :: rest, fallback => if cond then a else firstMatch rest fallback

/-- The overlay of `recommend` exactly as the specification words it:
trueCount>2 with 16 vs ten-up, then bust probability > 0.6, then
dealer-bust estimate > 0.5 with value at least 12, each forcing Stand,
else the basic-strategy action.  Written from the spec, to be compared
with `recommendAction`. -/
def recommendSpec (trueCount bustProb dealerBustProb : ℚ) (hand : List Card)
    (upCard : Card) : Action :=
  firstMatch
    [ (decide (2 < trueCount ∧ handValue hand = 16 ∧ upCard.value = 10), Action.stand),
      (decide ((3 : ℚ) / 5 < bustProb), Action.stand),
      (decide ((1 : ℚ) / 2 < dealerBustProb ∧ 12 ≤ handValue hand), Action.stand) ]
    (basicStrategyAI hand upCard)

/-- An external classifier: `predict([hand.value, up_card.value,
true_count])` returning an action label. -/
structure MLModel where
  predict : Nat → Nat → ℚ → Action

/-- The fixed list `["Hit", "Stand", "Double", "Split"]` that
`random.choice` draws from in `PlayerSimulator.make_decision`. -/
def actionChoices : List Action := [Action.hit, Action.stand, Action.double, Action.split]

/-- The uniformly random fallback choice, given its random index. -/
def randChoice (i : Fin 4) : Action :=
  match i with
  | ⟨0, _⟩ => Action.hit
  | ⟨1, _⟩ => Action.stand
  | ⟨2, _⟩ => Action.double
  | ⟨3, _⟩ => Action.split

/-- `PlayerSimulator.make_decision` of advanced-blackjack-simulation.py
(lines 192-206).  `optimal` is the `recommend_action` result; `r1` is the
draw compared with the skill level inside the classifier branch, `r2` the
50% blend draw, `r3` the draw of the final skill check, and `c` the index
`random.choice` picks. -/
def makeDecision (ml : Option MLModel) (skillLevel trueCount : ℚ) (hand : List Card)
    (upCard : Card) (optimal : Action) (r1 r2 r3 : ℚ) (c : Fin 4) : Action :=
  match ml with
  | some m =>
    if r1 < skillLevel then
      (if r2 < (1 : ℚ) / 2 then m.predict (handValue hand) upCard.value trueCount else optimal)
    else if r3 < skillLevel then optimal
    else randChoice c
  | none =>
    if r3 < skillLevel then optimal
    else randChoice c

/-- The legal action set at a decision point, written from the claim's
words: Hit and Stand always; Double only on a two-card hand; Split only on
a splittable pair below the 4-hand cap. -/
def legalActions (hand : List Card) (handCount : Nat) : List Action :=
  [Action.hit, Action.stand] ++
    (if hand.length = 2 then [Action.double] else []) ++
    (if canSplit hand = true ∧ handCount < 4 then [Action.split] else [])

/-- The decision policy as the (amended) claim describes it: with a
classifier configured, a first draw below the skill level yields the
classifier's prediction on half of such draws and otherwise the
recommendation; failing that (or with no classifier) a further draw below
the skill level yields the recommendation, and otherwise the emitted
action is the uniformly random choice from the fixed four-action list,
irrespective of legality.  Written from the claim's words, to be compared
with `makeDecision`. -/
def decisionSpec (ml : Option MLModel) (skillLevel trueCount : ℚ) (hand : List Card)
    (upCard : Card) (optimal : Action) (r1 r2 r3 : ℚ) (c : Fin 4) : Action :=
  let uniformFallback := randChoice c
  let skillGate : ℚ → Action → Action := fun r a => if r < skillLevel then a else uniformFallback
  match ml with
  | some m =>
    if r1 < skillLevel then
      (if r2 < (1 : ℚ) / 2 then m.predict (handValue hand) upCard.value trueCount else optimal)
    else skillGate r3 optimal
  | none => skillGate r3 optimal

/-- The exact bust fraction as the claim words it: the fraction of the
remaining shoe whose addition pushes the hand's value (with soft-ace
re-valuation) past 21.  Written from the claim, to be compared with
`calculateBustProbability`. -/
def exactBustFraction (deck hand : List Card) : ℚ :=
  ((deck.filter fun c => decide (21 < handValue (hand ++ [c]))).length : ℚ) /
    (deck.length : ℚ)

/-- One 52-card deck in the order of the source's list comprehension. -/
def oneDeckCards : List Card :=
  ([Rank.ace, .two, .three, .four, .five, .six, .seven, .eight, .nine, .ten,
    .jack, .queen, .king]).flatMap fun r =>
    ([Suit.spades, .hearts, .diamonds, .clubs]).map fun s => ⟨r, s⟩

/-- `Deck.__init__(num_decks)`: `num_decks` copies of the 52-card deck,
before shuffling. -/
def freshDeck (numDecks : Nat) : List Card := (List.replicate numDecks oneDeckCards).flatten

/-- The card counter state of the `CardCounter` class: running count,
true count and remaining-deck estimate. -/
structure CardCounter where
  count : ℤ
  true_count : ℚ
  decks_remaining : ℚ
deriving DecidableEq, Repr

/-- The reshuffle check at the top of each round of `simulate_game`
(lines 211-214): when fewer than 52 cards remain, replace the deck with a
fresh shuffled six-deck shoe and reset `decks_remaining` to 6.  `shuffle`
stands for `random.shuffle` and is assumed to permute its input. -/
def roundStartReshuffle (shuffle : List Card → List Card) (deck : List Card)
    (counter : CardCounter) : List Card × CardCounter :=
  if deck.length < 52 then (shuffle (freshDeck 6), { counter with decks_remaining := 6 })
  else (deck, counter)

/-- The mutable state of one seat's player loop in `simulate_game`:
`player_hands`, the seat's deck (`player.ai.deck.cards`) and
`player.bet_size`. -/
structure TurnState where
  hands : List (List Card)
  deck : List Card
  betSize : ℚ
deriving DecidableEq, Repr

/-- The `while True` decision loop of `simulate_game` (lines 224-244) for
the hand at index `i`, with the actions `make_decision` returns supplied
as an oracle list consumed one per iteration.  Returns the remaining
oracle, the new state and the cards drawn; `none` when the oracle is
exhausted with the loop still running or a draw fails.  An illegal Double
falls through to the next iteration and an illegal Split executes
`continue`: both re-query the oracle without changing the state. -/
def handLoop (i : Nat) : List Action → TurnState → Option (List Action × TurnState × List Card)
  | [], _ => none
  | d :: ds, st =>
    match st.hands[i]? with
    | none => none
    | some hand =>
      match d with
      | .hit =>
        match drawLast st.deck with
        | none => none
        | some (c, deck') =>
          let hand' := hand ++ [c]
          let st' : TurnState := ⟨st.hands.set i hand', deck', st.betSize⟩
          if 21 < handValue hand' then some (ds, st', [c])
          else (handLoop i ds st').map fun r => (r.1, r.2.1, c :: r.2.2)
      | .stand => some (ds, st, [])
      | .double =>
        if hand.length = 2 then
          match drawLast st.deck with
          | none => none
          | some (c, deck') =>
            some (ds, ⟨st.hands.set i (hand ++ [c]), deck', st.betSize * 2⟩, [c])
        else handLoop i ds st
      | .split =>
        if canSplit hand = true ∧ st.hands.length < 4 then
          match hand.getLast? with
          | none => none
          | some b =>
            match drawLast st.deck with
            | none => none
            | some (c₁, deck₁) =>
              match drawLast deck₁ with
              | none => none
              | some (c₂, deck₂) =>
                let st' : TurnState :=
                  ⟨(st.hands.set i (hand.dropLast ++ [c₁])) ++ [[b, c₂]],
                    deck₂, st.betSize⟩
                (handLoop i ds st').map fun r => (r.1, r.2.1, c₁ :: c₂ :: r.2.2)
        else handLoop i ds st

/-- The `for hand in player_hands` loop: Python iterates by index over the
live list, so hands appended by a Split are visited later.  The hand count
is capped at 4, so fuel 4 suffices. -/
def playHands (fuel i : Nat) (ds : List Action) (st : TurnState) :
    Option (List Action × TurnState × List Card) :=
  match fuel with
  | 0 => if i < st.hands.length then none else some (ds, st, [])
  | fuel + 1 =>
    if i < st.hands.length then
      match handLoop i ds st with
      | none => none
      | some (ds', st', dealt) =>
        (playHands fuel (i + 1) ds' st').map fun r => (r.1, r.2.1, dealt ++ r.2.2)
    else some (ds, st, [])

/-- The dealer's `while dealer_hand.value() < 17` draw loop (lines
250-251), drawing from the given deck without replacement.  Returns the
dealer hand, the deck and the cards drawn. -/
def dealerHits (fuel : Nat) (dealerHand deck : List Card) :
    Option (List Card × List Card × List Card) :=
  match fuel with
  | 0 => if handValue dealerHand < 17 then none else some (dealerHand, deck, [])
  | fuel + 1 =>
    if handValue dealerHand < 17 then
      match drawLast deck with
      | none => none
      | some (c, deck') =>
        (dealerHits fuel (dealerHand ++ [c]) deck').map fun r => (r.1, r.2.1, c :: r.2.2)
    else some (dealerHand, deck, [])

/-- The settlement of one hand against the dealer (lines 254-261):
bust loses the bet, dealer bust or higher value wins it, lower value
loses it, a tie pushes. -/
def settleDelta (handVal dealerVal : Nat) (bet : ℚ) : ℚ :=
  if 21 < handVal then -bet
  else if 21 < dealerVal ∨ dealerVal < handVal then bet
  else if handVal < dealerVal then -bet
  else 0

/-- One seat's per-round state in `simulate_game`: the seat's own deck
(each `PlayerSimulator` owns a `BlackjackAI` with its own deck), bankroll,
bet size, and the oracle of actions its `make_decision` returns. -/
structure SeatState where
  deck : List Card
  bankroll : ℚ
  betSize : ℚ
  decisions : List Action
deriving DecidableEq, Repr

/-- The outcome of one seat's block of the round: the dealer hand as it
stands after the block, the updated seat, the cards dealt from the seat's
deck during the block, the per-hand settlement deltas, and the cards
passed to `CardCounter.update` for this seat. -/
structure SeatResult where
  dealer : List Card
  seat : SeatState
  dealt : List Card
  deltas : List ℚ
  updates : List Card
deriving DecidableEq, Repr

/-- The body of `for player in players` in `simulate_game` (lines
220-268) for one seat: deal two cards, run the player loop, (European
rules) give the dealer its deferred card, run the dealer loop, settle each
hand against the dealer, reset the bet size to 10, and list the cards the
seat's counter is updated with (the dealer's cards plus every card in the
seat's hands). -/
def seatBlock (euro : Bool) (dealer : List Card) (s : SeatState) : Option SeatResult :=
  (drawLast s.deck).bind fun p₁ =>
  (drawLast p₁.2).bind fun p₂ =>
  (playHands 4 0 s.decisions ⟨[[p₁.1, p₂.1]], p₂.2, s.betSize⟩).bind fun ph =>
  (if euro then
    (drawLast ph.2.1.deck).map fun cd => (dealer ++ [cd.1], cd.2, [cd.1])
   else some (dealer, ph.2.1.deck, ([] : List Card))).bind fun eu =>
  (dealerHits 17 eu.1 eu.2.1).map fun dh =>
    { dealer := dh.1,
      seat := { deck := dh.2.1,
                bankroll := s.bankroll + (ph.2.1.hands.map fun h =>
                  settleDelta (handValue h) (handValue dh.1) ph.2.1.betSize).sum,
                betSize := 10, decisions := ph.1 },
      dealt := [p₁.1, p₂.1] ++ ph.2.2 ++ eu.2.2 ++ dh.2.2,
      deltas := ph.2.1.hands.map fun h =>
        settleDelta (handValue h) (handValue dh.1) ph.2.1.betSize,
      updates := dh.1 ++ ph.2.1.hands.flatten }

/-- The observable events of a round, in execution order: a card dealt
from a seat's deck, a settlement posting to a seat's bankroll, and one
`CardCounter.update` call on a seat's counter. -/
inductive Ev
  | deal (seat : Nat) (c : Card)
  | settle (seat : Nat) (delta : ℚ)
  | update (seat : Nat) (c : Card)
deriving DecidableEq, Repr

/-- Whether an event is a `CardCounter.update` call. -/
def Ev.isUpdate : Ev → Bool
  | .update _ _ => true
  | _ => false

/-- Whether an event is a settlement posting. -/
def Ev.isSettle : Ev → Bool
  | .settle _ _ => true
  | _ => false

instance : Inhabited Ev := ⟨Ev.deal 0 ⟨Rank.ace, Suit.spades⟩⟩

/-- The events of one seat's block, in the order the source executes them:
the deals of the block, then the settlements, then the counter updates. -/
def seatEvents (i : Nat) (r : SeatResult) : List Ev :=
  r.dealt.map (Ev.deal i) ++ r.deltas.map (Ev.settle i) ++ r.updates.map (Ev.update i)

/-- The `for player in players` loop, threading the shared dealer hand
through the seats and collecting each seat's events. -/
def seatsFold (euro : Bool) (i : Nat) (dealer : List Card) :
    List SeatState → Option (List SeatState × List Card × List Ev)
  | [] => some ([], dealer, [])
  | s :: rest =>
    (seatBlock euro dealer s).bind fun r =>
    (seatsFold euro (i + 1) r.dealer rest).map fun f =>
      (r.seat :: f.1, f.2.1, seatEvents i r ++ f.2.2)

/-- One round of `simulate_game` (lines 211-268, reshuffle check aside):
the dealer's first card (and, under American rules, the hole card) is
drawn from the first seat's deck, then each seat plays its block in
order.  Returns the seats, the final dealer hand and the event trace. -/
def roundSim (euro : Bool) : List SeatState → Option (List SeatState × List Card × List Ev)
  | [] => none
  | s₀ :: rest =>
    (drawLast s₀.deck).bind fun d₁ =>
    (if euro then some ([d₁.1], d₁.2)
     else (drawLast d₁.2).map fun dd => ([d₁.1, dd.1], dd.2)).bind fun start =>
    (seatsFold euro 0 start.1 ({ s₀ with deck := start.2 } :: rest)).map fun f =>
      (f.1, f.2.1, start.1.map (Ev.deal 0) ++ f.2.2)

/-- The cards of the `update` events of a trace. -/
def updatesCards (evs : List Ev) : List Card :=
  evs.filterMap fun e =>
    match e with
    | .update _ c => some c
    | _ => none

/-- The cards of the `deal` events of a trace. -/
def dealtCards (evs : List Ev) : List Card :=
  evs.filterMap fun e =>
    match e with
    | .deal _ c => some c
    | _ => none

/-- The floor of the hand's value once every Ace is demoted; used to bound
the dealer draw loops. -/
def hardFloor (h : List Card) : Nat := rawSum h - 10 * acesCount h

/- Concrete cards used by the concrete theorems. -/

def aceS : Card := ⟨Rank.ace, Suit.spades⟩
def aceH : Card := ⟨Rank.ace, Suit.hearts⟩
def aceD : Card := ⟨Rank.ace, Suit.diamonds⟩
def twoS : Card := ⟨Rank.two, Suit.spades⟩
def twoH : Card := ⟨Rank.two, Suit.hearts⟩
def threeS : Card := ⟨Rank.three, Suit.spades⟩
def fourS : Card := ⟨Rank.four, Suit.spades⟩
def fiveS : Card := ⟨Rank.five, Suit.spades⟩
def fiveH : Card := ⟨Rank.five, Suit.hearts⟩
def fiveD : Card := ⟨Rank.five, Suit.diamonds⟩
def sixS : Card := ⟨Rank.six, Suit.spades⟩
def sixC : Card := ⟨Rank.six, Suit.clubs⟩
def sevenD : Card := ⟨Rank.seven, Suit.diamonds⟩
def eightS : Card := ⟨Rank.eight, Suit.spades⟩
def eightH : Card := ⟨Rank.eight, Suit.hearts⟩
def nineS : Card := ⟨Rank.nine, Suit.spades⟩
def nineH : Card := ⟨Rank.nine, Suit.hearts⟩
def tenS : Card := ⟨Rank.ten, Suit.spades⟩
def tenH : Card := ⟨Rank.ten, Suit.hearts⟩
def tenC : Card := ⟨Rank.ten, Suit.clubs⟩
def kingS : Card := ⟨Rank.king, Suit.spades⟩
def kingC : Card := ⟨Rank.king, Suit.clubs⟩
def queenS : Card := ⟨Rank.queen, Suit.spades⟩

/-- The two-card Ace pair of claim C1's failing input. -/
def acePair : List Card := [aceS, aceH]

/-- Three-card state on which an illegal Double is requested (C5). -/
def c5state : TurnState := ⟨[[twoS, threeS, fourS]], [kingS], 10⟩

/-- Two-card non-pair state on which an illegal Split is requested (C5). -/
def c5statePair : TurnState := ⟨[[twoS, threeS]], [kingS], 10⟩

/-- First seat of the two-seat counterexample round of C3. -/
def c3seatA : SeatState := ⟨[fiveD, sevenD, queenS, kingS], 1000, 10, [Action.stand]⟩

/-- Second seat of the two-seat counterexample round of C3. -/
def c3seatB : SeatState := ⟨[nineH, eightH], 1000, 10, [Action.stand]⟩

/-- Unfolding equation of `adjustAces` with no Ace left. -/
theorem adjustAces_zero (t : Nat) : adjustAces t 0 = t := rfl

/-- Unfolding equation of `adjustAces` with an Ace left. -/
theorem adjustAces_succ (t a : Nat) :
    adjustAces t (a + 1) = if 21 < t then adjustAces (t - 10) a else t := rfl

/-- Characterization of the Ace-demotion loop: it subtracts 10 for some
number `d` of demoted Aces, with `d` at most the number of Aces, stopping
as soon as the total is at most 21 or every Ace is demoted, and every
demotion it performs happens while the running total still exceeds 21. -/
theorem adjustAces_spec (a t : Nat) :
    ∃ d, d ≤ a ∧ adjustAces t a = t - 10 * d ∧ (adjustAces t a ≤ 21 ∨ d = a) ∧
      ∀ e, e < d → 21 < t - 10 * e := by
  induction a generalizing t with
  | zero => exact ⟨0, le_rfl, by rw [adjustAces_zero]; omega, Or.inr rfl, by omega⟩
  | succ a ih =>
    rw [adjustAces_succ]
    by_cases h : 21 < t
    · obtain ⟨d, hd, heq, hor, hlt⟩ := ih (t - 10)
      rw [if_pos h]
      refine ⟨d + 1, by omega, by rw [heq]; omega, ?_, ?_⟩
      · rcases hor with h1 | h1
        · exact Or.inl h1
        · exact Or.inr (by omega)
      · intro e he
        match e with
        | 0 => omega
        | e + 1 => have := hlt e (by omega); omega
    · rw [if_neg h]
      exact ⟨0, by omega, by omega, Or.inl (by omega), by omega⟩

/-- Each fresh shoe holds `numDecks` times 52 cards. -/
theorem freshDeck_length (n : Nat) : (freshDeck n).length = n * 52 := by
  induction n with
  | zero => rfl
  | succ n ih =>
    rw [freshDeck, List.replicate_succ, List.flatten_cons, List.length_append]
    rw [freshDeck] at ih
    rw [ih]
    have h : oneDeckCards.length = 52 := by decide
    omega

/-- Claim C1: the split table fails on an Ace pair.  An Ace pair satisfies
`can_split()` but is valued 12, so it reaches the conditional-split branch
and `basic_strategy` answers Hit against a ten up-card, contradicting the
claim (and the code's own comment) that Ace pairs are always split.  The
8-pair and ten-pair parts of the claim do hold. -/
theorem c1_ace_pair_not_split :
    canSplit acePair = true ∧ basicStrategy acePair tenC = Action.hit ∧
    basicStrategy [eightS, eightH] fiveS = Action.split ∧
    basicStrategy [tenS, tenH] sixC = Action.stand := by decide

/-- Claim C2: `Hand.value()` equals the raw sum of card values minus 10
per demoted Ace, demoting only while the total exceeds 21 and an
undemoted Ace remains and never demoting an Ace twice; `[A,A,9]` values
21, `[A,K]` is a 21-valued blackjack, and `is_blackjack()` holds exactly
for two-card hands of value 21. -/
theorem c2_hand_value_characterization :
    (∀ h : List Card, ∃ d, d ≤ acesCount h ∧ handValue h = rawSum h - 10 * d ∧
        (handValue h ≤ 21 ∨ d = acesCount h) ∧ ∀ e, e < d → 21 < rawSum h - 10 * e) ∧
    handValue [aceS, aceH, nineS] = 21 ∧
    handValue [aceD, kingC] = 21 ∧ isBlackjack [aceD, kingC] = true ∧
    (∀ h : List Card, isBlackjack h = true ↔ h.length = 2 ∧ handValue h = 21) := by
  refine ⟨fun h => adjustAces_spec (acesCount h) (rawSum h), by decide, by decide,
    by decide, fun h => ?_⟩
  simp [isBlackjack]

/-- Claim C5: an illegal Double or Split is retried, not degraded to Hit.
On the three-card hand `[2,3,4]` a Double followed by a Stand leaves the
state untouched and deals no card (the claimed degradation to Hit would
have drawn one), a lone Double leaves the loop still querying the policy,
and a lone Split on a non-pair does the same: the loop re-queries instead
of hitting, so it makes no progress while the policy keeps asking. -/
theorem c5_illegal_action_retries :
    handLoop 0 [Action.double, Action.stand] c5state = some ([], c5state, []) ∧
    handLoop 0 [Action.double] c5state = none ∧
    handLoop 0 [Action.split] c5statePair = none := by decide

set_option maxRecDepth 8000 in
/-- Claim C4 counterexample: with one configured deck (numDecks = 1) and a
low shoe, the reshuffle still builds a six-deck shoe of 312 cards, not the
configured numDecks times 52 = 52. -/
theorem c4_reshuffle_counterexample :
    ((freshDeck 1).drop 1).length < 52 ∧
    (roundStartReshuffle id ((freshDeck 1).drop 1) ⟨0, 0, 1⟩).1.length = 312 ∧
    (1 * 52 : Nat) ≠ 312 := by decide

/-- Claim C4 (amended): whenever the shoe holds fewer than 52 cards at the
start of a round it is reshuffled before dealing to a fixed six-deck shoe
of 6 times 52 cards regardless of the configured deck count, and the
reshuffle leaves the counter's running count and true count unchanged. -/
theorem c4_reshuffle_fixed_six_decks (shuffle : List Card → List Card)
    (hsh : ∀ l, (shuffle l).Perm l) (deck : List Card) (counter : CardCounter)
    (hlow : deck.length < 52) :
    (roundStartReshuffle shuffle deck counter).1.length = 6 * 52 ∧
    (roundStartReshuffle shuffle deck counter).2.count = counter.count ∧
    (roundStartReshuffle shuffle deck counter).2.true_count = counter.true_count := by
  rw [roundStartReshuffle, if_pos hlow]
  refine ⟨?_, rfl, rfl⟩
  rw [(hsh (freshDeck 6)).length_eq, freshDeck_length]

/-- Witness for C4's amended theorem at the empty shoe. -/
theorem c4_reshuffle_fixed_six_decks_witness :
    (roundStartReshuffle id [] ⟨0, 0, 6⟩).1.length = 6 * 52 ∧
    (roundStartReshuffle id [] ⟨0, 0, 6⟩).2.count = (0 : ℤ) ∧
    (roundStartReshuffle id [] ⟨0, 0, 6⟩).2.true_count = (0 : ℚ) :=
  c4_reshuffle_fixed_six_decks id (fun l => List.Perm.refl l) [] ⟨0, 0, 6⟩ (by decide)

/-- Closed form of the Ace-demotion loop: it demotes the smaller of the
number of Aces and the number of 10-steps needed to come back to 21. -/
theorem adjustAces_closed (a : Nat) :
    ∀ t, adjustAces t a = t - 10 * min a (if t ≤ 21 then 0 else (t - 12) / 10) := by
  induction a with
  | zero =>
    intro t
    rw [adjustAces_zero]
    simp
  | succ a ih =>
    intro t
    rw [adjustAces_succ]
    by_cases h : 21 < t
    · rw [if_pos h, if_neg (by omega : ¬ t ≤ 21), ih (t - 10)]
      by_cases h2 : t - 10 ≤ 21
      · rw [if_pos h2]
        simp only [Nat.min_def]
        split_ifs <;> omega
      · rw [if_neg h2]
        simp only [Nat.min_def]
        split_ifs <;> omega
    · rw [if_neg h, if_pos (by omega : t ≤ 21)]
      simp

/-- Every card is worth between 2 and 11. -/
theorem card_value_bounds (c : Card) : 2 ≤ c.value ∧ c.value ≤ 11 := by
  rcases c with ⟨r, s⟩
  cases r <;> simp [Card.value]

/-- A card is worth 11 exactly when it is an Ace. -/
theorem card_value_eq_eleven (c : Card) : c.value = 11 ↔ c.rank = Rank.ace := by
  rcases c with ⟨r, s⟩
  cases r <;> simp [Card.value]

/-- Raw sum of a hand extended by one card. -/
theorem rawSum_append (h : List Card) (c : Card) :
    rawSum (h ++ [c]) = rawSum h + c.value := by
  simp [rawSum]

/-- Ace count of a hand extended by one card. -/
theorem acesCount_append (h : List Card) (c : Card) :
    acesCount (h ++ [c]) = acesCount h + (if c.rank = Rank.ace then 1 else 0) := by
  simp only [acesCount, List.filter_append, List.length_append]
  split_ifs with hc <;> simp [hc]

/-- The Aces of a hand account for at most the raw sum, 11 apiece. -/
theorem aces_le_rawSum (h : List Card) : 11 * acesCount h ≤ rawSum h := by
  induction h with
  | nil => simp [rawSum, acesCount]
  | cons c t ih =>
    have hb := card_value_bounds c
    have hv := card_value_eq_eleven c
    have h1 : rawSum (c :: t) = c.value + rawSum t := by simp [rawSum]
    have h2 : acesCount (c :: t) =
        acesCount t + (if c.rank = Rank.ace then 1 else 0) := by
      by_cases hc : c.rank = Rank.ace <;> simp [acesCount, List.filter_cons, hc]
    by_cases hc : c.rank = Rank.ace
    · have : c.value = 11 := hv.mpr hc
      rw [h1, h2, if_pos hc]
      omega
    · rw [h1, h2, if_neg hc]
      omega

/-- The demotion loop takes the total no lower than demoting every Ace. -/
theorem sub_le_adjustAces (t a : Nat) : t - 10 * a ≤ adjustAces t a := by
  induction a generalizing t with
  | zero => rw [adjustAces_zero]; omega
  | succ a ih =>
    rw [adjustAces_succ]
    split_ifs with h
    · have := ih (t - 10)
      omega
    · omega

/-- The all-Aces-demoted floor bounds the hand value from below. -/
theorem hardFloor_le_handValue (h : List Card) : hardFloor h ≤ handValue h :=
  sub_le_adjustAces (rawSum h) (acesCount h)

/-- Adding any card raises the all-Aces-demoted floor by at least one. -/
theorem hardFloor_append_succ (h : List Card) (c : Card) :
    hardFloor h + 1 ≤ hardFloor (h ++ [c]) := by
  have hb := card_value_bounds c
  have hv := card_value_eq_eleven c
  have h1 := aces_le_rawSum h
  rw [hardFloor, hardFloor, rawSum_append, acesCount_append]
  by_cases hc : c.rank = Rank.ace
  · have : c.value = 11 := hv.mpr hc
    rw [if_pos hc]
    omega
  · have : c.value ≠ 11 := fun he => hc (hv.mp he)
    rw [if_neg hc]
    omega

/-- Popping the last card and putting it back restores the deck. -/
theorem drawLast_some (d : List Card) (c : Card) (d' : List Card)
    (h : drawLast d = some (c, d')) : d' ++ [c] = d := by
  match d with
  | [] => simp [drawLast] at h
  | x :: xs =>
    simp only [drawLast, Option.some.injEq, Prod.mk.injEq] at h
    obtain ⟨h1, h2⟩ := h
    rw [← h1, ← h2]
    exact List.dropLast_append_getLast _

/-- Unfolding equation of a dealer trial with fuel left. -/
theorem dealerTrial_succ (fuel : Nat) (deck hand : List Card) :
    dealerTrial (fuel + 1) deck hand =
      if handValue hand < 17 then
        match drawLast deck with
        | none => none
        | some (c, deck') => dealerTrial fuel (deck' ++ [c]) (hand ++ [c])
      else some (hand, deck) := rfl

/-- Unfolding equation of a dealer trial out of fuel. -/
theorem dealerTrial_zero (deck hand : List Card) :
    dealerTrial 0 deck hand =
      if handValue hand < 17 then none else some (hand, deck) := rfl

/-- The dealer-trial loop terminates within fuel 17 on a non-empty deck:
the all-Aces-demoted floor grows by at least one per draw and bounds the
hand value from below, which the loop needs to reach 17. -/
theorem dealerTrial_isSome (fuel : Nat) :
    ∀ deck hand : List Card, deck ≠ [] → 17 ≤ hardFloor hand + fuel →
      (dealerTrial fuel deck hand).isSome := by
  induction fuel with
  | zero =>
    intro deck hand hne hf
    have h17 : ¬ handValue hand < 17 := by
      have := hardFloor_le_handValue hand
      omega
    rw [dealerTrial_zero, if_neg h17]
    rfl
  | succ fuel ih =>
    intro deck hand hne hf
    rw [dealerTrial_succ]
    by_cases h17 : handValue hand < 17
    · rw [if_pos h17]
      cases hd : drawLast deck with
      | none =>
        cases deck with
        | nil => exact absurd rfl hne
        | cons x xs => simp [drawLast] at hd
      | some cd =>
        obtain ⟨c, deck'⟩ := cd
        have hgrow := hardFloor_append_succ hand c
        exact ih (deck' ++ [c]) (hand ++ [c]) (by simp) (by omega)
    · rw [if_neg h17]
      rfl

/-- A completed dealer trial returns the deck it started from, and every
card it added to the hand is that deck's last card. -/
theorem dealerTrial_some (fuel : Nat) :
    ∀ (deck hand h₂ d₂ : List Card) (hne : deck ≠ []),
      dealerTrial fuel deck hand = some (h₂, d₂) →
      d₂ = deck ∧ ∃ k, h₂ = hand ++ List.replicate k (deck.getLast hne) := by
  induction fuel with
  | zero =>
    intro deck hand h₂ d₂ hne h
    rw [dealerTrial_zero] at h
    by_cases h17 : handValue hand < 17
    · rw [if_pos h17] at h
      simp at h
    · rw [if_neg h17] at h
      simp only [Option.some.injEq, Prod.mk.injEq] at h
      obtain ⟨rfl, rfl⟩ := h
      exact ⟨rfl, 0, by simp⟩
  | succ fuel ih =>
    intro deck hand h₂ d₂ hne h
    rw [dealerTrial_succ] at h
    by_cases h17 : handValue hand < 17
    · rw [if_pos h17] at h
      cases hd : drawLast deck with
      | none =>
        cases deck with
        | nil => exact absurd rfl hne
        | cons x xs => simp [drawLast] at hd
      | some cd =>
        obtain ⟨c, deck'⟩ := cd
        rw [hd] at h
        have hdeck : deck' ++ [c] = deck := drawLast_some deck c deck' hd
        have hne' : deck' ++ [c] ≠ [] := by simp
        have hc : c = deck.getLast hne := by
          cases deck with
          | nil => exact absurd rfl hne
          | cons x xs =>
            simp only [drawLast, Option.some.injEq, Prod.mk.injEq] at hd
            exact hd.1.symm
        obtain ⟨hd₂, k, hk⟩ := ih (deck' ++ [c]) (hand ++ [c]) h₂ d₂ hne' h
        refine ⟨by rw [hd₂, hdeck], k + 1, ?_⟩
        have hlast : (deck' ++ [c]).getLast hne' = c := by
          simp
        rw [hk, hlast, ← hc, List.replicate_succ]
        simp
    · rw [if_neg h17] at h
      simp only [Option.some.injEq, Prod.mk.injEq] at h
      obtain ⟨rfl, rfl⟩ := h
      exact ⟨rfl, 0, by simp⟩

/-- Because every trial reads the same deck and restores it, the trial
count is all-or-nothing: `n` busts when the single repeated trial busts,
zero otherwise, with the deck returned intact. -/
theorem dealerTrials_run (deck : List Card) (upCard : Card) (h₂ : List Card)
    (h : dealerTrial 17 deck [upCard] = some (h₂, deck)) :
    ∀ n, dealerTrials deck upCard n =
      some ((if 21 < handValue h₂ then n else 0), deck) := by
  intro n
  induction n with
  | zero => simp [dealerTrials]
  | succ n ih =>
    simp only [dealerTrials, h, ih]
    by_cases hb : 21 < handValue h₂ <;> simp [hb]

/-- `simulate_dealer_hand` succeeds on a non-empty deck with at least one
trial and hands the deck back unchanged. -/
theorem simulateDealerHand_run (deck : List Card) (upCard : Card) (n : Nat)
    (hne : deck ≠ []) (hn : 0 < n) :
    ∃ q, simulateDealerHand deck upCard n = some (q, deck) := by
  have hs : (dealerTrial 17 deck [upCard]).isSome :=
    dealerTrial_isSome 17 deck [upCard] hne (by omega)
  obtain ⟨⟨h₂, d₂⟩, hh⟩ := Option.isSome_iff_exists.mp hs
  have hd : d₂ = deck := (dealerTrial_some 17 deck [upCard] h₂ d₂ hne hh).1
  rw [hd] at hh
  have ht := dealerTrials_run deck upCard h₂ hh n
  refine ⟨((if 21 < handValue h₂ then n else 0 : Nat) : ℚ) / (n : ℚ), ?_⟩
  rw [simulateDealerHand, if_neg (by omega), ht]
  rfl

/-- Claim C9: `simulate_dealer_hand` leaves the live shoe unchanged — the
remaining multiset of cards after the call is the one before it, because
every drawn card is appended straight back. -/
theorem c9_shoe_preserved (deck : List Card) (upCard : Card) (n : Nat)
    (hne : deck ≠ []) (hn : 0 < n) :
    ∃ q d₂, simulateDealerHand deck upCard n = some (q, d₂) ∧ d₂.Perm deck := by
  obtain ⟨q, hq⟩ := simulateDealerHand_run deck upCard n hne hn
  exact ⟨q, deck, hq, List.Perm.refl deck⟩

/-- Witness for C9 on a one-card shoe and three trials. -/
theorem c9_shoe_preserved_witness :
    ∃ q d₂, simulateDealerHand [kingS] fiveS 3 = some (q, d₂) ∧ d₂.Perm [kingS] :=
  c9_shoe_preserved [kingS] fiveS 3 (by decide) (by decide)

/-- Claim C10: each draw of `simulate_dealer_hand` pops the deck's last
card and appends that same card back, so the trial hand is the up-card
followed by copies of the one card at the top of the shoe, the deck comes
back identical, and every trial is that same trial: the bust count is `n`
or `0` according to that single outcome. -/
theorem c10_trial_top_card (deck : List Card) (upCard : Card) (hne : deck ≠ [])
    (h₂ d₂ : List Card) (n : Nat)
    (h : dealerTrial 17 deck [upCard] = some (h₂, d₂)) :
    d₂ = deck ∧ (∃ k, h₂ = upCard :: List.replicate k (deck.getLast hne)) ∧
    dealerTrials deck upCard n = some ((if 21 < handValue h₂ then n else 0), deck) := by
  obtain ⟨hd, k, hk⟩ := dealerTrial_some 17 deck [upCard] h₂ d₂ hne h
  rw [hd] at h
  exact ⟨hd, ⟨k, by simpa using hk⟩, dealerTrials_run deck upCard h₂ h n⟩

/-- Witness for C10 on the one-card shoe `[K]` with up-card 5: the trial
hand is `5,K,K` (the King drawn twice), and three trials count three
busts. -/
theorem c10_trial_top_card_witness :
    ([kingS] : List Card) = [kingS] ∧
    (∃ k, [fiveS, kingS, kingS] =
      fiveS :: List.replicate k (([kingS] : List Card).getLast (by decide))) ∧
    dealerTrials [kingS] fiveS 3 =
      some ((if 21 < handValue [fiveS, kingS, kingS] then 3 else 0), [kingS]) :=
  c10_trial_top_card [kingS] fiveS (by decide) [fiveS, kingS, kingS] [kingS] 3 (by decide)

/-- Claim C6: `recommend_action` computes its basic recommendation, exact
bust probability and Monte Carlo dealer-bust estimate, then applies the
overlay in the spec's fixed order with first match winning; the result
coincides with the first-match-wins rule list written from the spec. -/
theorem c6_recommend_overlay (deck : List Card) (trueCount : ℚ) (hand : List Card)
    (upCard : Card) (n : Nat) (hne : deck ≠ []) (hn : 0 < n) :
    ∃ dealerBustProb : ℚ,
      simulateDealerHand deck upCard n = some (dealerBustProb, deck) ∧
      recommendAction deck trueCount hand upCard n =
        some (recommendSpec trueCount (calculateBustProbability deck hand)
          dealerBustProb hand upCard) := by
  obtain ⟨q, hq⟩ := simulateDealerHand_run deck upCard n hne hn
  refine ⟨q, hq, ?_⟩
  rw [recommendAction]
  simp only [hq]
  by_cases h1 : 2 < trueCount ∧ handValue hand = 16 ∧ upCard.value = 10 <;>
    by_cases h2 : (3 : ℚ) / 5 < calculateBustProbability deck hand <;>
      by_cases h3 : (1 : ℚ) / 2 < q ∧ 12 ≤ handValue hand <;>
        simp [recommendSpec, firstMatch, h1, h2, h3]

/-- Witness for C6 on a one-card shoe with a hard 16 against a 5. -/
theorem c6_recommend_overlay_witness :
    ∃ dealerBustProb : ℚ,
      simulateDealerHand [kingS] fiveS 3 = some (dealerBustProb, [kingS]) ∧
      recommendAction [kingS] 0 [tenS, sixS] fiveS 3 =
        some (recommendSpec 0 (calculateBustProbability [kingS] [tenS, sixS])
          dealerBustProb [tenS, sixS] fiveS) :=
  c6_recommend_overlay [kingS] 0 [tenS, sixS] fiveS 3 (by decide) (by decide)

/-- On a hard hand of value at most 20, a card busts the hand exactly when
its value falls in the histogram range `[22 - value, 10]` the source
sums over. -/
theorem bust_iff_range (hand : List Card) (c : Card)
    (hard : handValue hand = rawSum hand - 10 * acesCount hand)
    (hle : handValue hand ≤ 20) :
    (21 < handValue (hand ++ [c])) ↔
      (22 - (handValue hand : ℤ) ≤ (c.value : ℤ) ∧ (c.value : ℤ) ≤ 10) := by
  have hraw := aces_le_rawSum hand
  have hb := card_value_bounds c
  have hv11 := card_value_eq_eleven c
  have e1 : handValue hand = rawSum hand -
      10 * min (acesCount hand)
        (if rawSum hand ≤ 21 then 0 else (rawSum hand - 12) / 10) :=
    adjustAces_closed (acesCount hand) (rawSum hand)
  have e2 : handValue (hand ++ [c]) = (rawSum hand + c.value) -
      10 * min (acesCount hand + (if c.rank = Rank.ace then 1 else 0))
        (if rawSum hand + c.value ≤ 21 then 0
         else (rawSum hand + c.value - 12) / 10) := by
    have h0 : handValue (hand ++ [c]) =
        adjustAces (rawSum (hand ++ [c])) (acesCount (hand ++ [c])) := rfl
    rw [h0, adjustAces_closed, rawSum_append, acesCount_append]
  by_cases hc : c.rank = Rank.ace
  · have hcv : c.value = 11 := hv11.mpr hc
    rw [if_pos hc] at e2
    rw [e2]
    rw [e1] at hard hle
    simp only [Nat.min_def] at hard e2 ⊢
    split_ifs at hard e2 ⊢ <;> omega
  · have hcv : c.value ≠ 11 := fun he => hc (hv11.mp he)
    rw [if_neg hc] at e2
    rw [e2]
    rw [e1] at hard hle
    simp only [Nat.min_def] at hard e2 ⊢
    split_ifs at hard e2 ⊢ <;> omega

/-- The histogram sum over `range(a, 11)` counts exactly the remaining
cards whose value lies between `a` and 10. -/
theorem sumIco_eq_filter (a : ℤ) (deck : List Card) :
    (∑ i ∈ Finset.Ico a 11, remainingCount deck i) =
      (deck.filter fun c =>
        decide (a ≤ (c.value : ℤ) ∧ (c.value : ℤ) ≤ 10)).length := by
  induction deck with
  | nil => simp [remainingCount]
  | cons c d ih =>
    have h1 : ∀ i, remainingCount (c :: d) i =
        remainingCount d i + (if (c.value : ℤ) = i then 1 else 0) := by
      intro i
      by_cases hc : (c.value : ℤ) = i <;> simp [remainingCount, List.filter_cons, hc]
    have h2 : (∑ i ∈ Finset.Ico a 11, if (c.value : ℤ) = i then 1 else 0) =
        if (c.value : ℤ) ∈ Finset.Ico a 11 then 1 else 0 :=
      Finset.sum_ite_eq (Finset.Ico a 11) ((c.value : ℤ)) (fun _ => 1)
    simp only [h1, Finset.sum_add_distrib, ih, h2]
    by_cases hp : a ≤ (c.value : ℤ) ∧ (c.value : ℤ) ≤ 10
    · have hmem : (c.value : ℤ) ∈ Finset.Ico a 11 :=
        Finset.mem_Ico.mpr ⟨hp.1, by omega⟩
      have hp2 : c.value ≤ 10 := by exact_mod_cast hp.2
      simp [hmem, List.filter_cons, hp.1, hp2]
    · have hmem : (c.value : ℤ) ∉ Finset.Ico a 11 := by
        simp only [Finset.mem_Ico, not_and, not_lt]
        intro hal
        omega
      have hp' : ¬(a ≤ (c.value : ℤ) ∧ c.value ≤ 10) := by
        intro hx
        exact hp ⟨hx.1, by exact_mod_cast hx.2⟩
      simp [hmem, List.filter_cons, hp']

/-- Claim C7 (amended): on a hard hand (no Ace still counted as 11) of
value at most 20, `calculate_bust_probability` equals the exact fraction
of the remaining shoe whose addition busts the hand; on soft hands (see
the counterexample) the histogram-range computation can differ. -/
theorem c7_hard_hand_exact (deck hand : List Card)
    (hard : handValue hand = rawSum hand - 10 * acesCount hand)
    (hle : handValue hand ≤ 20) (hne : deck ≠ []) :
    calculateBustProbability deck hand = exactBustFraction deck hand := by
  have hlen : 0 < deck.length := List.length_pos.mpr hne
  have hf : (deck.filter fun c =>
        decide (22 - (handValue hand : ℤ) ≤ (c.value : ℤ) ∧ (c.value : ℤ) ≤ 10)) =
      (deck.filter fun c => decide (21 < handValue (hand ++ [c]))) := by
    apply List.filter_congr
    intro c _
    rw [decide_eq_decide]
    exact (bust_iff_range hand c hard hle).symm
  rw [calculateBustProbability, exactBustFraction]
  simp only [sumIco_eq_filter, hf, if_pos hlen]

/-- Witness for C7's amended theorem: the hard 16 `[K,6]` against the
two-card shoe `[Q,2]`, where both computations give one bust card in
two. -/
theorem c7_hard_hand_exact_witness :
    calculateBustProbability [queenS, twoH] [kingS, sixS] =
      exactBustFraction [queenS, twoH] [kingS, sixS] :=
  c7_hard_hand_exact [queenS, twoH] [kingS, sixS] (by decide) (by decide) (by decide)

/-- Claim C7 counterexample: on the soft hand `[A,5]` (value 16) with a
lone King left in the shoe, `calculate_bust_probability` reports 1, yet
drawing the King re-values the Ace and gives a 16-valued hand, so the
exact bust fraction is 0: the histogram-range computation ignores the
hand's softness. -/
theorem c7_counterexample_soft_hand :
    calculateBustProbability [kingC] [aceS, fiveH] = 1 ∧
    exactBustFraction [kingC] [aceS, fiveH] = 0 ∧
    handValue [aceS, fiveH, kingC] = 16 := by
  refine ⟨?_, ?_, by decide⟩
  · have h : (∑ i ∈ Finset.Ico (22 - (handValue [aceS, fiveH] : ℤ)) 11,
        remainingCount [kingC] i) = 1 := by decide
    rw [calculateBustProbability]
    simp [h]
  · have h : (List.filter (fun c => decide (21 < handValue ([aceS, fiveH] ++ [c])))
        [kingC]) = [] := by decide
    rw [exactBustFraction, h]
    simp

/-- Claim C8 counterexample: with no classifier, a skill draw at or above
the skill level and `random.choice` landing on index 2, `make_decision`
emits Double on a three-card hand, an action outside the legal action set
at that point — the random fallback never filters illegal actions. -/
theorem c8_counterexample_illegal_random :
    makeDecision none 0 0 [twoS, threeS, fourS] fiveS Action.stand 0 0 0 2 =
      Action.double ∧
    Action.double ∉ legalActions [twoS, threeS, fourS] 1 := by decide

/-- Claim C8 (amended): `make_decision` behaves as the amended description
says — with a classifier, a first draw below the skill level yields the
classifier's prediction on half of such draws and otherwise the
recommendation; failing that (or with no classifier) a fresh draw below
the skill level yields the recommendation, and otherwise the emitted
action is the uniformly random pick from the fixed four-action list
`[Hit, Stand, Double, Split]`, irrespective of legality. -/
theorem c8_decision_characterization (ml : Option MLModel) (skillLevel trueCount : ℚ)
    (hand : List Card) (upCard : Card) (optimal : Action) (r1 r2 r3 : ℚ) (c : Fin 4) :
    makeDecision ml skillLevel trueCount hand upCard optimal r1 r2 r3 c =
      decisionSpec ml skillLevel trueCount hand upCard optimal r1 r2 r3 c ∧
    randChoice c ∈ actionChoices := by
  constructor
  · cases ml <;> rfl
  · fin_cases c <;> decide

/-- Setting hand `i` to itself plus one card permutes the flattened pool
into the old pool plus that card. -/
theorem flatten_set_perm (L : List (List Card)) (c : Card) :
    ∀ (i : Nat) (hand : List Card), L[i]? = some hand →
      (L.set i (hand ++ [c])).flatten.Perm (L.flatten ++ [c]) := by
  induction L with
  | nil => intro i hand hi; simp at hi
  | cons x xs ih =>
    intro i hand hi
    cases i with
    | zero =>
      simp only [List.getElem?_cons_zero, Option.some.injEq] at hi
      subst hi
      simp only [List.set_cons_zero, List.flatten_cons]
      rw [List.append_assoc, List.append_assoc]
      exact List.Perm.append_left x List.perm_append_comm
    | succ i =>
      simp only [List.getElem?_cons_succ] at hi
      simp only [List.set_cons_succ, List.flatten_cons]
      rw [List.append_assoc]
      exact List.Perm.append_left x (ih i hand hi)

/-- A legal split (replace hand `i` by its front plus a fresh card and
append the popped card with a second fresh card) permutes the flattened
pool into the old pool plus the two fresh cards. -/
theorem flatten_set_split_perm (L : List (List Card)) (b c₁ c₂ : Card) :
    ∀ (i : Nat) (hand : List Card), L[i]? = some hand → hand = hand.dropLast ++ [b] →
      ((L.set i (hand.dropLast ++ [c₁])) ++ [[b, c₂]]).flatten.Perm
        (L.flatten ++ [c₁, c₂]) := by
  induction L with
  | nil => intro i hand hi _; simp at hi
  | cons x xs ih =>
    intro i hand hi hsplit
    cases i with
    | zero =>
      simp only [List.getElem?_cons_zero, Option.some.injEq] at hi
      subst hi
      simp only [List.cons_append, List.set_cons_zero, List.flatten_cons,
        List.flatten_append, List.flatten_nil, List.append_nil]
      rw [← Multiset.coe_eq_coe]
      have hx : (x : Multiset Card) = ↑(x.dropLast ++ [b]) := by
        rw [← hsplit]
      simp only [← Multiset.coe_add, ← Multiset.cons_coe, ← Multiset.singleton_add,
        Multiset.coe_nil, add_zero] at hx ⊢
      rw [hx]
      abel
    | succ i =>
      simp only [List.getElem?_cons_succ] at hi
      simp only [List.cons_append, List.set_cons_succ, List.flatten_cons]
      rw [List.append_assoc]
      exact List.Perm.append_left x (ih i hand hi hsplit)

/-- The while-True decision loop only moves cards from the deck into the
hands: the final flattened hands are a permutation of the initial ones
plus the dealt cards. -/
theorem handLoop_perm (i : Nat) (ds : List Action) :
    ∀ (st : TurnState) (r : List Action × TurnState × List Card),
      handLoop i ds st = some r →
      r.2.1.hands.flatten.Perm (st.hands.flatten ++ r.2.2) := by
  induction ds with
  | nil => intro st r h; simp [handLoop] at h
  | cons d ds ih =>
    intro st r h
    rw [handLoop] at h
    cases hh : st.hands[i]? with
    | none => rw [hh] at h; exact Option.noConfusion h
    | some hand =>
      rw [hh] at h
      cases d with
      | hit =>
        cases hd : drawLast st.deck with
        | none => rw [hd] at h; exact Option.noConfusion h
        | some cd =>
          obtain ⟨c, deck'⟩ := cd
          rw [hd] at h
          have h' : (if 21 < handValue (hand ++ [c]) then
              some (ds, (⟨st.hands.set i (hand ++ [c]), deck', st.betSize⟩ : TurnState), [c])
            else (handLoop i ds ⟨st.hands.set i (hand ++ [c]), deck', st.betSize⟩).map
              fun r => (r.1, r.2.1, c :: r.2.2)) = some r := h
          by_cases hb : 21 < handValue (hand ++ [c])
          · rw [if_pos hb] at h'
            obtain rfl := Option.some.inj h'
            exact flatten_set_perm st.hands c i hand hh
          · rw [if_neg hb] at h'
            obtain ⟨r', hr', rfl⟩ := Option.map_eq_some'.mp h'
            have h1 := ih _ r' hr'
            refine h1.trans ?_
            refine ((flatten_set_perm st.hands c i hand hh).append_right r'.2.2).trans ?_
            rw [List.append_assoc, List.singleton_append]
      | stand =>
        obtain rfl := Option.some.inj h
        simp
      | double =>
        have h' : (if hand.length = 2 then
            match drawLast st.deck with
            | none => none
            | some (c, deck') =>
              some (ds, (⟨st.hands.set i (hand ++ [c]), deck', st.betSize * 2⟩ : TurnState), [c])
          else handLoop i ds st) = some r := h
        by_cases h2 : hand.length = 2
        · rw [if_pos h2] at h'
          cases hd : drawLast st.deck with
          | none => rw [hd] at h'; exact Option.noConfusion h'
          | some cd =>
            obtain ⟨c, deck'⟩ := cd
            rw [hd] at h'
            obtain rfl := Option.some.inj h'
            exact flatten_set_perm st.hands c i hand hh
        · rw [if_neg h2] at h'
          exact ih st r h'
      | split =>
        have h' : (if canSplit hand = true ∧ st.hands.length < 4 then
            match hand.getLast? with
            | none => none
            | some b =>
              match drawLast st.deck with
              | none => none
              | some (c₁, deck₁) =>
                match drawLast deck₁ with
                | none => none
                | some (c₂, deck₂) =>
                  (handLoop i ds ⟨(st.hands.set i (hand.dropLast ++ [c₁])) ++ [[b, c₂]],
                      deck₂, st.betSize⟩).map fun r => (r.1, r.2.1, c₁ :: c₂ :: r.2.2)
          else handLoop i ds st) = some r := h
        by_cases hc : canSplit hand = true ∧ st.hands.length < 4
        · rw [if_pos hc] at h'
          cases hgl : hand.getLast? with
          | none => rw [hgl] at h'; exact Option.noConfusion h'
          | some b =>
            rw [hgl] at h'
            have hA : (match drawLast st.deck with
                | none => none
                | some (c₁, deck₁) =>
                  match drawLast deck₁ with
                  | none => none
                  | some (c₂, deck₂) =>
                    (handLoop i ds ⟨(st.hands.set i (hand.dropLast ++ [c₁])) ++ [[b, c₂]],
                        deck₂, st.betSize⟩).map fun r => (r.1, r.2.1, c₁ :: c₂ :: r.2.2)) =
                some r := h'
            cases hd₁ : drawLast st.deck with
            | none => rw [hd₁] at hA; exact Option.noConfusion hA
            | some cd₁ =>
              obtain ⟨c₁, deck₁⟩ := cd₁
              rw [hd₁] at hA
              have hB : (match drawLast deck₁ with
                  | none => none
                  | some (c₂, deck₂) =>
                    (handLoop i ds ⟨(st.hands.set i (hand.dropLast ++ [c₁])) ++ [[b, c₂]],
                        deck₂, st.betSize⟩).map fun r => (r.1, r.2.1, c₁ :: c₂ :: r.2.2)) =
                  some r := hA
              cases hd₂ : drawLast deck₁ with
              | none => rw [hd₂] at hB; exact Option.noConfusion hB
              | some cd₂ =>
                obtain ⟨c₂, deck₂⟩ := cd₂
                rw [hd₂] at hB
                obtain ⟨r', hr', rfl⟩ := Option.map_eq_some'.mp hB
                have hne : hand ≠ [] := by
                  intro he
                  rw [he] at hgl
                  simp at hgl
                have hlast : hand.getLast hne = b := by
                  rw [List.getLast?_eq_getLast hand hne] at hgl
                  exact Option.some.inj hgl
                have hsplit : hand = hand.dropLast ++ [b] := by
                  rw [← hlast]
                  exact (List.dropLast_append_getLast hne).symm
                have h1 := ih _ r' hr'
                refine h1.trans ?_
                refine ((flatten_set_split_perm st.hands b c₁ c₂ i hand hh
                  hsplit).append_right r'.2.2).trans ?_
                rw [List.append_assoc]
                rfl
        · rw [if_neg hc] at h'
          exact ih st r h'

/-- Unfolding equation of the hand-index loop out of fuel. -/
theorem playHands_zero (i : Nat) (ds : List Action) (st : TurnState) :
    playHands 0 i ds st =
      if i < st.hands.length then none else some (ds, st, []) := rfl

/-- Unfolding equation of the hand-index loop with fuel left. -/
theorem playHands_succ (fuel i : Nat) (ds : List Action) (st : TurnState) :
    playHands (fuel + 1) i ds st =
      if i < st.hands.length then
        match handLoop i ds st with
        | none => none
        | some (ds', st', dealt) =>
          (playHands fuel (i + 1) ds' st').map fun r => (r.1, r.2.1, dealt ++ r.2.2)
      else some (ds, st, []) := rfl

/-- Unfolding equation of the dealer draw loop out of fuel. -/
theorem dealerHits_zero (dealerHand deck : List Card) :
    dealerHits 0 dealerHand deck =
      if handValue dealerHand < 17 then none else some (dealerHand, deck, []) := rfl

/-- Unfolding equation of the dealer draw loop with fuel left. -/
theorem dealerHits_succ (fuel : Nat) (dealerHand deck : List Card) :
    dealerHits (fuel + 1) dealerHand deck =
      if handValue dealerHand < 17 then
        match drawLast deck with
        | none => none
        | some (c, deck') =>
          (dealerHits fuel (dealerHand ++ [c]) deck').map fun r => (r.1, r.2.1, c :: r.2.2)
      else some (dealerHand, deck, []) := rfl

/-- The hand-index loop only moves cards from the deck into the hands. -/
theorem playHands_perm (fuel : Nat) :
    ∀ (i : Nat) (ds : List Action) (st : TurnState)
      (r : List Action × TurnState × List Card),
      playHands fuel i ds st = some r →
      r.2.1.hands.flatten.Perm (st.hands.flatten ++ r.2.2) := by
  induction fuel with
  | zero =>
    intro i ds st r h
    rw [playHands_zero] at h
    by_cases hi : i < st.hands.length
    · rw [if_pos hi] at h
      exact Option.noConfusion h
    · rw [if_neg hi] at h
      obtain rfl := Option.some.inj h
      simp
  | succ fuel ih =>
    intro i ds st r h
    rw [playHands_succ] at h
    split_ifs at h with hi
    · cases hl : handLoop i ds st with
      | none => rw [hl] at h; exact Option.noConfusion h
      | some r₁ =>
        obtain ⟨ds₁, st₁, dealt₁⟩ := r₁
        rw [hl] at h
        obtain ⟨r₂, hr₂, rfl⟩ := Option.map_eq_some'.mp h
        have h1 := handLoop_perm i ds st (ds₁, st₁, dealt₁) hl
        have h2 := ih (i + 1) ds₁ st₁ r₂ hr₂
        refine h2.trans ?_
        refine (h1.append_right r₂.2.2).trans ?_
        rw [List.append_assoc]
    · obtain rfl := Option.some.inj h
      simp

/-- The dealer's draw loop appends exactly the cards it draws. -/
theorem dealerHits_eq (fuel : Nat) :
    ∀ (dealerHand deck : List Card) (r : List Card × List Card × List Card),
      dealerHits fuel dealerHand deck = some r → r.1 = dealerHand ++ r.2.2 := by
  induction fuel with
  | zero =>
    intro dh deck r h
    rw [dealerHits_zero] at h
    by_cases h17 : handValue dh < 17
    · rw [if_pos h17] at h
      exact Option.noConfusion h
    · rw [if_neg h17] at h
      obtain rfl := Option.some.inj h
      simp
  | succ fuel ih =>
    intro dh deck r h
    rw [dealerHits_succ] at h
    split_ifs at h with h17
    · cases hd : drawLast deck with
      | none => rw [hd] at h; exact Option.noConfusion h
      | some cd =>
        obtain ⟨c, deck'⟩ := cd
        rw [hd] at h
        obtain ⟨r', hr', rfl⟩ := Option.map_eq_some'.mp h
        have h1 := ih (dh ++ [c]) deck' r' hr'
        rw [h1, List.append_assoc]
        rfl
    · obtain rfl := Option.some.inj h
      simp

/-- One seat's block updates its counter with exactly the dealer hand it
faced plus the cards of its own hands, which together are a permutation
of the dealer hand it was handed plus every card the block dealt. -/
theorem seatBlock_updates_perm (euro : Bool) (dealer : List Card) (s : SeatState)
    (r : SeatResult) (h : seatBlock euro dealer s = some r) :
    r.updates.Perm (dealer ++ r.dealt) := by
  rw [seatBlock] at h
  obtain ⟨p₁, hp₁, h⟩ := Option.bind_eq_some.mp h
  obtain ⟨p₂, hp₂, h⟩ := Option.bind_eq_some.mp h
  obtain ⟨ph, hph, h⟩ := Option.bind_eq_some.mp h
  obtain ⟨eu, heu, h⟩ := Option.bind_eq_some.mp h
  obtain ⟨dh, hdh, rfl⟩ := Option.map_eq_some'.mp h
  have h1 : ph.2.1.hands.flatten.Perm ([[p₁.1, p₂.1]].flatten ++ ph.2.2) :=
    playHands_perm 4 0 s.decisions _ ph hph
  have h2 : dh.1 = eu.1 ++ dh.2.2 := dealerHits_eq 17 eu.1 eu.2.1 dh hdh
  have h3 : eu.1 = dealer ++ eu.2.2 := by
    cases euro with
    | false =>
      simp only [Bool.false_eq_true, if_false] at heu
      obtain rfl := Option.some.inj heu
      simp
    | true =>
      simp only [if_true] at heu
      obtain ⟨cd, hcd, rfl⟩ := Option.map_eq_some'.mp heu
      rfl
  simp only [List.flatten_cons, List.flatten_nil, List.append_nil] at h1
  rw [← Multiset.coe_eq_coe]
  have hflat := Multiset.coe_eq_coe.mpr h1
  simp only [h2, h3]
  simp only [← Multiset.coe_add, ← Multiset.cons_coe, ← Multiset.singleton_add,
    Multiset.coe_nil, add_zero] at hflat ⊢
  rw [hflat]
  abel

/-- Extracting the update cards distributes over trace concatenation. -/
theorem updatesCards_append (A B : List Ev) :
    updatesCards (A ++ B) = updatesCards A ++ updatesCards B := by
  simp [updatesCards]

/-- Extracting the dealt cards distributes over trace concatenation. -/
theorem dealtCards_append (A B : List Ev) :
    dealtCards (A ++ B) = dealtCards A ++ dealtCards B := by
  simp [dealtCards]

/-- Deal events carry no update cards. -/
theorem updatesCards_deal (i : Nat) (l : List Card) :
    updatesCards (l.map (Ev.deal i)) = [] := by
  induction l with
  | nil => rfl
  | cons c t ih => simpa [updatesCards, List.filterMap_cons] using ih

/-- Settle events carry no update cards. -/
theorem updatesCards_settle (i : Nat) (l : List ℚ) :
    updatesCards (l.map (Ev.settle i)) = [] := by
  induction l with
  | nil => rfl
  | cons c t ih => simpa [updatesCards, List.filterMap_cons] using ih

/-- Update events carry exactly their cards. -/
theorem updatesCards_update (i : Nat) (l : List Card) :
    updatesCards (l.map (Ev.update i)) = l := by
  induction l with
  | nil => rfl
  | cons c t ih => simpa [updatesCards, List.filterMap_cons] using ih

/-- Deal events carry exactly their cards. -/
theorem dealtCards_deal (i : Nat) (l : List Card) :
    dealtCards (l.map (Ev.deal i)) = l := by
  induction l with
  | nil => rfl
  | cons c t ih => simpa [dealtCards, List.filterMap_cons] using ih

/-- Settle events carry no dealt cards. -/
theorem dealtCards_settle (i : Nat) (l : List ℚ) :
    dealtCards (l.map (Ev.settle i)) = [] := by
  induction l with
  | nil => rfl
  | cons c t ih => simpa [dealtCards, List.filterMap_cons] using ih

/-- Update events carry no dealt cards. -/
theorem dealtCards_update (i : Nat) (l : List Card) :
    dealtCards (l.map (Ev.update i)) = [] := by
  induction l with
  | nil => rfl
  | cons c t ih => simpa [dealtCards, List.filterMap_cons] using ih

/-- Deal events are not updates. -/
theorem filter_not_update_deal (i : Nat) (l : List Card) :
    (l.map (Ev.deal i)).filter (fun e => !e.isUpdate) = l.map (Ev.deal i) := by
  induction l with
  | nil => rfl
  | cons c t ih => simpa [Ev.isUpdate, List.filter_cons] using ih

/-- Settle events are not updates. -/
theorem filter_not_update_settle (i : Nat) (l : List ℚ) :
    (l.map (Ev.settle i)).filter (fun e => !e.isUpdate) = l.map (Ev.settle i) := by
  induction l with
  | nil => rfl
  | cons c t ih => simpa [Ev.isUpdate, List.filter_cons] using ih

/-- Update events all are updates: the negative filter drops them. -/
theorem filter_not_update_update (i : Nat) (l : List Card) :
    (l.map (Ev.update i)).filter (fun e => !e.isUpdate) = [] := by
  induction l with
  | nil => rfl
  | cons c t ih => simpa [Ev.isUpdate, List.filter_cons] using ih

/-- Deal events are dropped by the update filter. -/
theorem filter_update_deal (i : Nat) (l : List Card) :
    (l.map (Ev.deal i)).filter (fun e => e.isUpdate) = [] := by
  induction l with
  | nil => rfl
  | cons c t ih => simpa [Ev.isUpdate, List.filter_cons] using ih

/-- Settle events are dropped by the update filter. -/
theorem filter_update_settle (i : Nat) (l : List ℚ) :
    (l.map (Ev.settle i)).filter (fun e => e.isUpdate) = [] := by
  induction l with
  | nil => rfl
  | cons c t ih => simpa [Ev.isUpdate, List.filter_cons] using ih

/-- Update events are kept by the update filter. -/
theorem filter_update_update (i : Nat) (l : List Card) :
    (l.map (Ev.update i)).filter (fun e => e.isUpdate) = l.map (Ev.update i) := by
  induction l with
  | nil => rfl
  | cons c t ih => simpa [Ev.isUpdate, List.filter_cons] using ih

/-- An update event is never a settlement. -/
theorem isSettle_of_isUpdate (e : Ev) (h : e.isUpdate = true) : e.isSettle = false := by
  cases e <;> simp [Ev.isUpdate, Ev.isSettle] at h ⊢

/-- In a trace that is a block of non-updates followed by a block of
updates, every settlement's index precedes every update's index. -/
theorem settle_before_update (P U : List Ev) (hP : ∀ e ∈ P, e.isUpdate = false)
    (hU : ∀ e ∈ U, e.isUpdate = true) :
    ∀ i j, ((P ++ U).getD i default).isSettle = true →
      ((P ++ U).getD j default).isUpdate = true → i < j := by
  intro i j hi hj
  have hjP : P.length ≤ j := by
    by_contra hjp
    push_neg at hjp
    have he : (P ++ U).getD j default = P[j] := by
      rw [List.getD_eq_getElem?_getD, List.getElem?_append_left hjp,
        List.getElem?_eq_getElem hjp]
      rfl
    rw [he] at hj
    exact absurd hj (by simp [hP P[j] (List.getElem_mem hjp)])
  have hiP : i < P.length := by
    by_contra hip
    push_neg at hip
    have he : (P ++ U).getD i default = U.getD (i - P.length) default := by
      rw [List.getD_eq_getElem?_getD, List.getElem?_append_right hip,
        ← List.getD_eq_getElem?_getD]
    by_cases hiu : i - P.length < U.length
    · have he2 : U.getD (i - P.length) default = U[i - P.length] := by
        rw [List.getD_eq_getElem?_getD, List.getElem?_eq_getElem hiu]
        rfl
      rw [he, he2] at hi
      have := isSettle_of_isUpdate _ (hU _ (List.getElem_mem hiu))
      rw [this] at hi
      exact Bool.noConfusion hi
    · push_neg at hiu
      have he2 : U.getD (i - P.length) default = default := by
        rw [List.getD_eq_getElem?_getD, List.getElem?_eq_none hiu]
        rfl
      rw [he, he2] at hi
      exact Bool.noConfusion hi
  omega

set_option maxRecDepth 8000 in
/-- Claim C3 counterexample: in a concrete two-seat American-rules round,
the dealer's King of spades is dealt exactly once (from the first seat's
deck) yet triggers two `CardCounter.update` calls, one on each seat's
counter — the per-player update loop re-counts the dealer's cards for
every seat, so a dealt card does not cause exactly one update call. -/
theorem c3_counterexample_two_seats :
    (roundSim false [c3seatA, c3seatB]).isSome = true ∧
    (updatesCards (((roundSim false [c3seatA, c3seatB]).map
      fun r => r.2.2).getD [])).count kingS = 2 ∧
    (dealtCards (((roundSim false [c3seatA, c3seatB]).map
      fun r => r.2.2).getD [])).count kingS = 1 := by
  decide

/-- Claim C3 (amended): in every single-seat round that completes, the
multiset of cards passed to `CardCounter.update` is exactly the multiset
of cards dealt during the round (each dealt card updates the counter
exactly once), the update calls form a contiguous suffix of the round's
event trace, and every settlement posting precedes every update call.
With several seats the dealer's cards are counted once per seat (see the
counterexample). -/
theorem c3_single_seat_round (s : SeatState) (euro : Bool) :
    (roundSim euro [s]).elim True fun res =>
      (updatesCards res.2.2).Perm (dealtCards res.2.2) ∧
      res.2.2 = res.2.2.filter (fun e => !e.isUpdate) ++
        res.2.2.filter (fun e => e.isUpdate) ∧
      (∀ i j, (res.2.2.getD i default).isSettle = true →
        (res.2.2.getD j default).isUpdate = true → i < j) := by
  cases hr : roundSim euro [s] with
  | none => exact trivial
  | some res =>
    rw [roundSim] at hr
    obtain ⟨d₁, hd₁, hr⟩ := Option.bind_eq_some.mp hr
    obtain ⟨start, hstart, hr⟩ := Option.bind_eq_some.mp hr
    obtain ⟨f, hf, rfl⟩ := Option.map_eq_some'.mp hr
    rw [seatsFold] at hf
    obtain ⟨r, hrB, hf⟩ := Option.bind_eq_some.mp hf
    rw [seatsFold] at hf
    obtain ⟨f₂, hf₂, rfl⟩ := Option.map_eq_some'.mp hf
    obtain rfl := Option.some.inj hf₂
    have hupd := seatBlock_updates_perm euro start.1 _ r hrB
    simp only [Option.elim]
    refine ⟨?_, ?_, ?_⟩
    · simp only [seatEvents, updatesCards_append, dealtCards_append,
        updatesCards_deal, updatesCards_settle, updatesCards_update,
        dealtCards_deal, dealtCards_settle, dealtCards_update,
        List.nil_append, List.append_nil]
      exact hupd
    · simp only [seatEvents, List.filter_append,
        filter_not_update_deal, filter_not_update_settle, filter_not_update_update,
        filter_update_deal, filter_update_settle, filter_update_update,
        List.nil_append, List.append_nil, List.append_assoc]
    · intro i j hi hj
      have hsuffix : (start.1.map (Ev.deal 0) ++ (seatEvents 0 r ++ [])) =
          (start.1.map (Ev.deal 0) ++
            (r.dealt.map (Ev.deal 0) ++ r.deltas.map (Ev.settle 0))) ++
            r.updates.map (Ev.update 0) := by
        simp [seatEvents, List.append_assoc]
      rw [hsuffix] at hi hj
      refine settle_before_update _ _ ?_ ?_ i j hi hj
      · intro e he
        simp only [List.mem_append, List.mem_map] at he
        rcases he with (⟨c, _, rfl⟩ | (⟨c, _, rfl⟩ | ⟨c, _, rfl⟩))
        · rfl
        · rfl
        · rfl
      · intro e he
        simp only [List.mem_map] at he
        obtain ⟨c, _, rfl⟩ := he
        rfl

set_option maxRecDepth 8000 in
/-- Witness for C3's amended theorem on a concrete one-seat round. -/
theorem c3_single_seat_round_witness :
    (roundSim false [⟨[fiveD, sevenD, queenS, kingS], 1000, 10,
        [Action.stand]⟩]).elim True fun res =>
      (updatesCards res.2.2).Perm (dealtCards res.2.2) ∧
      res.2.2 = res.2.2.filter (fun e => !e.isUpdate) ++
        res.2.2.filter (fun e => e.isUpdate) ∧
      (∀ i j, (res.2.2.getD i default).isSettle = true →
        (res.2.2.getD j default).isUpdate = true → i < j) :=
  c3_single_seat_round ⟨[fiveD, sevenD, queenS, kingS], 1000, 10, [Action.stand]⟩ false

end Blackjack
